import Mathlib

/-!
Verification of the harmonia binary-cache server against its specification.

Bytes are modelled as `Nat` (with explicit `< 256` bounds where they matter),
byte strings as `List Nat`, and the wire codec / NAR serializer / daemon
client are shallowly embedded as executable Lean functions translated from
the Rust source (`src/nar.rs`, `harmonia/src/signing.rs`,
`harmonia/src/daemon.rs`, `harmonia/src/main.rs`, `src/narlist.rs`).
-/

set_option maxRecDepth 10000

/-- ASCII bytes of a string literal (all protocol tokens are ASCII). -/
def ascii (s : String) : List Nat := s.data.map Char.toNat

/-- Little-endian 8-byte encoding of a `u64` (`u64::to_le_bytes`). -/
def u64le (n : Nat) : List Nat :=
  [n % 256, n / 256 % 256, n / 65536 % 256, n / 16777216 % 256,
   n / 4294967296 % 256, n / 1099511627776 % 256,
   n / 281474976710656 % 256, n / 72057594037927936 % 256]

/-- Decodes 8 little-endian bytes into a number (`u64::from_le_bytes`). -/
def decodeU64 (bs : List Nat) : Nat :=
  bs.getD 0 0 + 256 * bs.getD 1 0 + 65536 * bs.getD 2 0 + 16777216 * bs.getD 3 0 +
  4294967296 * bs.getD 4 0 + 1099511627776 * bs.getD 5 0 +
  281474976710656 * bs.getD 6 0 + 72057594037927936 * bs.getD 7 0

/-- From `src/nar.rs` `alignment`: zero padding needed after `size` bytes. -/
def alignment (size : Nat) : Nat :=
  let align := 8 - size % 8
  if align = 8 then 0 else align

/-- NAR/daemon string framing: u64 length, payload, zero padding to 8 bytes. -/
def frameStr (s : List Nat) : List Nat :=
  u64le s.length ++ s ++ List.replicate (alignment s.length) 0

/-- From `src/nar.rs` `write_byte_slices`: each slice framed, concatenated. -/
def wbs (slices : List (List Nat)) : List Nat :=
  (slices.map frameStr).flatten

/-- The nix base-32 alphabet from `harmonia/src/signing.rs` (omits e o u t). -/
def BASE32_CHARS : List Nat := ascii "0123456789abcdfghijklmnpqrsvwxyz"

/-- From `harmonia/src/signing.rs` `to_nix_base32`, the alphabet index for
character `n` (0-indexed from the least significant end): `v1` are the bits
from the lower byte (`checked_shr`), `v2` the bits from the upper byte
(`checked_shl`, which yields 0 when the shift amount is 8, i.e. `j = 0`). -/
def nix32CharVal (bytes : List Nat) (n : Nat) : Nat :=
  let b := n * 5
  let i := b / 8
  let j := b % 8
  let v1 := bytes.getD i 0 >>> j
  let v2 := if i ≥ bytes.length - 1 then 0
            else if j = 0 then 0 else (bytes.getD (i + 1) 0 <<< (8 - j)) % 256
  (v1 ||| v2) % 32

/-- From `harmonia/src/signing.rs` `to_nix_base32`, one output character. -/
def nix32Char (bytes : List Nat) (n : Nat) : Nat :=
  BASE32_CHARS.getD (nix32CharVal bytes n) 0

/-- From `harmonia/src/signing.rs` `to_nix_base32`. On the empty input the
Rust expression `bytes.len() * 8 - 1` underflows `usize` and the function
panics (debug) or indexes out of bounds (release); that is modelled as
`none`. Otherwise characters are emitted from most significant to least
significant. -/
def toNixBase32 (bytes : List Nat) : Option (List Nat) :=
  if bytes.length = 0 then none
  else
    let len := (bytes.length * 8 - 1) / 5 + 1
    some ((List.range len).reverse.map (nix32Char bytes))

/-- Bit `k` of a byte string viewed as little-endian, bits beyond the array
being zero (the specification's view of the base-32 input). -/
def streamBit (bytes : List Nat) (k : Nat) : Bool :=
  (bytes.getD (k / 8) 0).testBit (k % 8)

/-- Decimal rendering of a number, as Rust `format!` does. -/
def natDecimal (n : Nat) : List Nat := ascii (toString n)

inductive FpResult where
  | ok (s : List Nat)
  | errored
  | panicked
deriving DecidableEq

/-- From `harmonia/src/signing.rs` `fingerprint_path`, the loop over `refs`:
`r[0..root_store_dir.len()]` panics when `r` is shorter than the store
directory, and the comparison failure is a `bail!`. `none` means the loop
finished without failing. -/
def refsCheck (storeDir : List Nat) : List (List Nat) → Option FpResult
  | [] => none
  | r :: rest =>
    if r.length < storeDir.length then some .panicked
    else if r.take storeDir.length ≠ storeDir then some .errored
    else refsCheck storeDir rest

/-- From `harmonia/src/signing.rs` `fingerprint_path`. The store directory
(`libnixstore::get_store_dir()`, an FFI call) is a parameter. The
`assert!(nar_hash.starts_with("sha256:"))` is a panic, not an error. -/
def fingerprintPath (storeDir storePath narHash : List Nat) (narSize : Nat)
    (refs : List (List Nat)) : FpResult :=
  if storePath.length < storeDir.length then .errored
  else if storePath.take storeDir.length ≠ storeDir then .errored
  else if narHash.take 7 ≠ ascii "sha256:" then .panicked
  else if narHash.length ≠ 59 then .errored
  else match refsCheck storeDir refs with
    | some r => r
    | none =>
      .ok (ascii "1;" ++ storePath ++ ascii ";" ++ narHash ++ ascii ";" ++
        natDecimal narSize ++ ascii ";" ++ (ascii ",").intercalate refs)



/-! Daemon wire model (`harmonia/src/daemon.rs`): a socket is a script of
input bytes still to be read plus the bytes written so far. -/

structure Wire where
  input : List Nat
  output : List Nat
deriving DecidableEq

inductive DErr where
  | shortRead
  | badUtf8
  | badMagic
  | badVersion
  | badTag
  | badField
  | daemonError
  | dialFailed
  | outOfFuel
deriving DecidableEq

/-- `read_exact`: take `n` bytes from the socket, failing on a short read. -/
def readExact (n : Nat) (w : Wire) : Option (List Nat × Wire) :=
  if n ≤ w.input.length then some (w.input.take n, ⟨w.input.drop n, w.output⟩)
  else none

/-- From `harmonia/src/daemon.rs` `read_num`. -/
def readNum (w : Wire) : Except DErr (Nat × Wire) :=
  match readExact 8 w with
  | none => .error .shortRead
  | some (bs, w1) => .ok (decodeU64 bs, w1)

/-- From `harmonia/src/daemon.rs` `write_num` (writes are modelled as
infallible). -/
def writeNum (n : Nat) (w : Wire) : Wire :=
  ⟨w.input, w.output ++ u64le n⟩

/-- From `harmonia/src/daemon.rs` `write_string`. -/
def writeString (s : List Nat) (w : Wire) : Wire :=
  ⟨w.input, w.output ++ u64le s.length ++ s ++
    List.replicate ((8 - s.length % 8) % 8) 0⟩

/-- UTF-8 validity of a byte sequence, as checked by Rust
`str::from_utf8` inside `read_string` (the table of
`core::str::validations::run_utf8_validation`). -/
def utf8Valid : List Nat → Bool
  | [] => true
  | b :: rest =>
    if b < 0x80 then utf8Valid rest
    else if b < 0xC2 then false
    else if b < 0xE0 then
      match rest with
      | c1 :: rest2 =>
        if 0x80 ≤ c1 ∧ c1 < 0xC0 then utf8Valid rest2 else false
      | [] => false
    else if b < 0xF0 then
      match rest with
      | c1 :: c2 :: rest2 =>
        if ((if b = 0xE0 then 0xA0 else 0x80) ≤ c1 ∧
              c1 < (if b = 0xED then 0xA0 else 0xC0)) ∧
            (0x80 ≤ c2 ∧ c2 < 0xC0) then utf8Valid rest2 else false
      | _ => false
    else if b < 0xF5 then
      match rest with
      | c1 :: c2 :: c3 :: rest2 =>
        if ((if b = 0xF0 then 0x90 else 0x80) ≤ c1 ∧
              c1 < (if b = 0xF4 then 0x90 else 0xC0)) ∧
            (0x80 ≤ c2 ∧ c2 < 0xC0) ∧ (0x80 ≤ c3 ∧ c3 < 0xC0) then
          utf8Valid rest2 else false
      | _ => false
    else false

/-- From `harmonia/src/daemon.rs` `read_string`: u64 length, `(len + 7) & !7`
bytes, of which the first `len` must decode as UTF-8 (Rust `String`). -/
def readString (w : Wire) : Except DErr (List Nat × Wire) :=
  match readNum w with
  | .error e => .error e
  | .ok (len, w1) =>
    match readExact ((len + 7) / 8 * 8) w1 with
    | none => .error .shortRead
    | some (buf, w2) =>
      if utf8Valid (buf.take len) then .ok (buf.take len, w2)
      else .error .badUtf8

/-- The loop of `read_string_list`: read `count` strings. -/
def readStrings (count : Nat) (w : Wire) : Except DErr (List (List Nat) × Wire) :=
  match count with
  | 0 => .ok ([], w)
  | k + 1 =>
    match readString w with
    | .error e => .error e
    | .ok (s, w1) =>
      match readStrings k w1 with
      | .error e => .error e
      | .ok (ss, w2) => .ok (s :: ss, w2)

/-- From `harmonia/src/daemon.rs` `read_string_list`. -/
def readStringList (w : Wire) : Except DErr (List (List Nat) × Wire) :=
  match readNum w with
  | .error e => .error e
  | .ok (len, w1) => readStrings len w1

/-- From `harmonia/src/daemon.rs` `write_string_list`. -/
def writeStringList (l : List (List Nat)) (w : Wire) : Wire :=
  l.foldl (fun acc s => writeString s acc) (writeNum l.length w)

def WORKER_MAGIC_1 : Nat := 0x6e697863
def WORKER_MAGIC_2 : Nat := 0x6478696f

/-- `(1 << 8) | 38`, both `MINIMUM_PROTOCOL_VERSION` and `CLIENT_VERSION`. -/
def PROTOCOL_1_38 : Nat := 0x126

/-- The `traces` loop of the stderr `Error` message. -/
def readTraces (count : Nat) (w : Wire) : Except DErr Wire :=
  match count with
  | 0 => .ok w
  | k + 1 =>
    match readNum w with
    | .error e => .error e
    | .ok (_, w1) =>
      match readString w1 with
      | .error e => .error e
      | .ok (_, w2) => readTraces k w2

/-- From `harmonia/src/daemon.rs` `forward_stderr`: drain the logger
side-channel until `Last`; a daemon `Error` message or an unknown tag or
field type aborts. The loop is modelled with fuel (each iteration consumes
at least 8 input bytes, so `input.length + 1` fuel always suffices). -/
def forwardStderr (fuel : Nat) (w : Wire) : Except DErr Wire :=
  match fuel with
  | 0 => .error .outOfFuel
  | fuel + 1 =>
    match readNum w with
    | .error e => .error e
    | .ok (tag, w1) =>
      if tag = 0x64617416 then -- Write
        match readString w1 with
        | .error e => .error e
        | .ok (_, w2) => forwardStderr fuel w2
      else if tag = 0x63787470 then -- Error
        match readString w1 with -- typ
        | .error e => .error e
        | .ok (_, w2) =>
          match readNum w2 with -- level
          | .error e => .error e
          | .ok (_, w3) =>
            match readString w3 with -- name
            | .error e => .error e
            | .ok (_, w4) =>
              match readString w4 with -- message
              | .error e => .error e
              | .ok (_, w5) =>
                match readNum w5 with -- have_pos
                | .error e => .error e
                | .ok (_, w6) =>
                  match readNum w6 with -- traces_len
                  | .error e => .error e
                  | .ok (tl, w7) =>
                    match readTraces tl w7 with
                    | .error e => .error e
                    | .ok _ => .error .daemonError
      else if tag = 0x6f6c6d67 then -- Next
        match readString w1 with
        | .error e => .error e
        | .ok (_, w2) => forwardStderr fuel w2
      else if tag = 0x53545254 then -- StartActivity
        match readNum w1 with -- act
        | .error e => .error e
        | .ok (_, w2) =>
          match readNum w2 with -- lvl
          | .error e => .error e
          | .ok (_, w3) =>
            match readNum w3 with -- typ
            | .error e => .error e
            | .ok (_, w4) =>
              match readString w4 with -- s
              | .error e => .error e
              | .ok (_, w5) =>
                match readNum w5 with -- field kind
                | .error e => .error e
                | .ok (k, w6) =>
                  match (if k = 0 then
                           match readNum w6 with
                           | .error e => .error e
                           | .ok (_, x) => .ok x
                         else if k = 1 then
                           match readString w6 with
                           | .error e => .error e
                           | .ok (_, x) => .ok x
                         else (.error .badField : Except DErr Wire)) with
                  | .error e => .error e
                  | .ok w7 =>
                    match readNum w7 with -- parent
                    | .error e => .error e
                    | .ok (_, w8) => forwardStderr fuel w8
      else if tag = 0x53544f50 then -- StopActivity
        match readNum w1 with
        | .error e => .error e
        | .ok (_, w2) => forwardStderr fuel w2
      else if tag = 0x52534c54 then -- Result
        match readString w1 with
        | .error e => .error e
        | .ok (_, w2) => forwardStderr fuel w2
      else if tag = 0x616c7473 then .ok w1 -- Last
      else .error .badTag

structure HandshakeData where
  serverFeatures : List (List Nat)
  daemonVersion : List Nat
  isTrusted : Bool
deriving DecidableEq

/-- From `harmonia/src/daemon.rs` `handshake`. -/
def handshake (w : Wire) : Except DErr (HandshakeData × Wire) :=
  let w := writeNum WORKER_MAGIC_1 w
  match readNum w with
  | .error e => .error e
  | .ok (magic, w) =>
    if magic ≠ WORKER_MAGIC_2 then .error .badMagic
    else
      match readNum w with
      | .error e => .error e
      | .ok (protocolVersion, w) =>
        if protocolVersion < PROTOCOL_1_38 then .error .badVersion
        else
          let w := writeNum PROTOCOL_1_38 w
          let w := writeNum 0 w
          let w := writeNum 0 w
          match readStringList w with
          | .error e => .error e
          | .ok (serverFeatures, w) =>
            let w := writeStringList [] w
            match readString w with
            | .error e => .error e
            | .ok (daemonVersion, w) =>
              match readNum w with
              | .error e => .error e
              | .ok (isTrusted, w) =>
                match forwardStderr (w.input.length + 1) w with
                | .error e => .error e
                | .ok w =>
                  .ok (⟨serverFeatures, daemonVersion, isTrusted == 1⟩, w)

/-- The lazily connected session: `DaemonConnection.socket`. -/
structure ConnSt where
  socket : Option Wire
deriving DecidableEq

/-- What a fresh dial of the Unix socket would yield (`UnixStream::connect`):
`none` models a connection failure. -/
structure DWorld where
  dial : Option Wire

/-- From `harmonia/src/daemon.rs` `DaemonConnection::connect`: reuse the
stored socket, or dial and run the handshake; a handshake or dial failure
leaves no socket stored. -/
def connectC (world : DWorld) (c : ConnSt) : Except DErr Wire :=
  match c.socket with
  | some s => .ok s
  | none =>
    match world.dial with
    | none => .error .dialFailed
    | some fresh =>
      match handshake fresh with
      | .error e => .error e
      | .ok (_, s) => .ok s

/-- `DaemonConnection::read_num`: on failure the socket is dropped. -/
def cReadNum (world : DWorld) (c : ConnSt) : Except DErr Nat × ConnSt :=
  match connectC world c with
  | .error e => (.error e, ⟨none⟩)
  | .ok s =>
    match readNum s with
    | .error e => (.error e, ⟨none⟩)
    | .ok (v, s1) => (.ok v, ⟨some s1⟩)

/-- `DaemonConnection::write_num`. -/
def cWriteNum (world : DWorld) (c : ConnSt) (n : Nat) : Except DErr Unit × ConnSt :=
  match connectC world c with
  | .error e => (.error e, ⟨none⟩)
  | .ok s => (.ok (), ⟨some (writeNum n s)⟩)

/-- `DaemonConnection::write_string`. -/
def cWriteString (world : DWorld) (c : ConnSt) (s : List Nat) : Except DErr Unit × ConnSt :=
  match connectC world c with
  | .error e => (.error e, ⟨none⟩)
  | .ok sk => (.ok (), ⟨some (writeString s sk)⟩)

/-- `DaemonConnection::read_string`. -/
def cReadString (world : DWorld) (c : ConnSt) : Except DErr (List Nat) × ConnSt :=
  match connectC world c with
  | .error e => (.error e, ⟨none⟩)
  | .ok s =>
    match readString s with
    | .error e => (.error e, ⟨none⟩)
    | .ok (v, s1) => (.ok v, ⟨some s1⟩)

/-- `DaemonConnection::read_string_list`. -/
def cReadStringList (world : DWorld) (c : ConnSt) :
    Except DErr (List (List Nat)) × ConnSt :=
  match connectC world c with
  | .error e => (.error e, ⟨none⟩)
  | .ok s =>
    match readStringList s with
    | .error e => (.error e, ⟨none⟩)
    | .ok (v, s1) => (.ok v, ⟨some s1⟩)

/-- `DaemonConnection::forward_stderr`. -/
def cForwardStderr (world : DWorld) (c : ConnSt) : Except DErr Unit × ConnSt :=
  match connectC world c with
  | .error e => (.error e, ⟨none⟩)
  | .ok s =>
    match forwardStderr (s.input.length + 1) s with
    | .error e => (.error e, ⟨none⟩)
    | .ok s1 => (.ok (), ⟨some s1⟩)

/-- Sequencing of fallible session steps (Rust `?`). -/
def opBind {α β : Type} (r : Except DErr α × ConnSt)
    (f : α → ConnSt → Except DErr β × ConnSt) : Except DErr β × ConnSt :=
  match r with
  | (.error e, c) => (.error e, c)
  | (.ok a, c) => f a c

/-- From `harmonia/src/daemon.rs` `is_valid_path` (opcode 1). -/
def isValidPath (world : DWorld) (c : ConnSt) (path : List Nat) :
    Except DErr Bool × ConnSt :=
  opBind (cWriteNum world c 1) fun _ c =>
  opBind (cWriteString world c path) fun _ c =>
  opBind (cForwardStderr world c) fun _ c =>
  opBind (cReadNum world c) fun res c =>
  (.ok (res != 0), c)

/-- From `harmonia/src/daemon.rs` `query_path_from_hash_part` (opcode 29). -/
def queryPathFromHashPart (world : DWorld) (c : ConnSt) (hashPart : List Nat) :
    Except DErr (Option (List Nat)) × ConnSt :=
  opBind (cWriteNum world c 29) fun _ c =>
  opBind (cWriteString world c hashPart) fun _ c =>
  opBind (cForwardStderr world c) fun _ c =>
  opBind (cReadString world c) fun resp c =>
  (.ok (if resp.isEmpty then none else some resp), c)

/-- `ValidPathInfo` from `harmonia/src/daemon.rs`. -/
structure ValidPathInfo where
  deriver : List Nat
  hash : List Nat
  references : List (List Nat)
  registrationTime : Nat
  narSize : Nat
  ultimate : Bool
  sigs : List (List Nat)
  contentAddress : Option (List Nat)
deriving DecidableEq

/-- From `harmonia/src/daemon.rs` `query_path_info` (opcode 26). -/
def queryPathInfo (world : DWorld) (c : ConnSt) (path : List Nat) :
    Except DErr (Option ValidPathInfo) × ConnSt :=
  opBind (cWriteNum world c 26) fun _ c =>
  opBind (cWriteString world c path) fun _ c =>
  opBind (cForwardStderr world c) fun _ c =>
  opBind (cReadNum world c) fun optionalFlag c =>
  if optionalFlag = 0 then (.ok none, c)
  else
    opBind (cReadString world c) fun deriver c =>
    opBind (cReadString world c) fun hash c =>
    opBind (cReadStringList world c) fun references c =>
    opBind (cReadNum world c) fun registrationTime c =>
    opBind (cReadNum world c) fun narSize c =>
    opBind (cReadNum world c) fun ultimate c =>
    opBind (cReadStringList world c) fun sigs c =>
    opBind (cReadString world c) fun ca c =>
    (.ok (some ⟨deriver, hash, references, registrationTime, narSize,
      ultimate != 0, sigs, if ca.isEmpty then none else some ca⟩), c)

/-- The crash-recovery invariant: an error leaves no stored socket, success
leaves one. -/
def sockInv {α : Type} (r : Except DErr α × ConnSt) : Prop :=
  match r.1 with
  | .error _ => r.2.socket = none
  | .ok _ => r.2.socket.isSome

/-- Wire encoding of a string list (u64 count, then framed strings). -/
def encodeStringList (l : List (List Nat)) : List Nat :=
  u64le l.length ++ (l.map frameStr).flatten

/-- A filesystem tree: the input the NAR serializer walks. Directory
entries are listed in the (arbitrary) order `read_dir` yields them. -/
inductive FSNode where
  | regular (mode : Nat) (contents : List Nat)
  | symlink (target : List Nat)
  | directory (entries : List (List Nat × FSNode))

/-- Byte-wise lexicographic order on names (the `Ord` of `OsString` keys in
the `BTreeMap` used by `Frame::new`). -/
def lexLt : List Nat → List Nat → Bool
  | [], [] => false
  | [], _ :: _ => true
  | _ :: _, [] => false
  | a :: as, b :: bs => if a < b then true else if b < a then false else lexLt as bs

/-- `BTreeMap::insert`: keep keys sorted, replace the value on an equal key. -/
def insertE (n : List Nat) (c : FSNode) :
    List (List Nat × FSNode) → List (List Nat × FSNode)
  | [] => [(n, c)]
  | (m, d) :: r =>
    if lexLt n m then (n, c) :: (m, d) :: r
    else if n = m then (n, c) :: r
    else (m, d) :: insertE n c r

/-- Building the `BTreeMap` by inserting the directory entries in the order
the directory yields them (a later duplicate replaces an earlier one). -/
def sortGo : List (List Nat × FSNode) → List (List Nat × FSNode) →
    List (List Nat × FSNode)
  | [], acc => acc
  | (n, c) :: r, acc => sortGo r (insertE n c acc)

def sortE (es : List (List Nat × FSNode)) : List (List Nat × FSNode) :=
  sortGo es []

mutual
def mNode : FSNode → Nat
  | .regular _ _ => 1
  | .symlink _ => 1
  | .directory es => 2 + mEntL es
def mEntL : List (List Nat × FSNode) → Nat
  | [] => 0
  | (_, c) :: r => 1 + mNode c + mEntL r
end

def dirHeader : List Nat := wbs [ascii "(", ascii "type", ascii "directory"]

def closeTok : List Nat := wbs [ascii ")"]

def entryHeader (n : List Nat) : List Nat :=
  wbs [ascii "entry", ascii "(", ascii "name", n, ascii "node"]

mutual
/-- The specification's recursive `node(P)` grammar (§4.3 of the spec),
with directory entries iterated in byte-wise ascending name order. -/
def specNode : FSNode → List Nat
  | .regular mode contents =>
    (if mode &&& 0o100 ≠ 0 then
      wbs [ascii "(", ascii "type", ascii "regular", ascii "executable",
        ascii "", ascii "contents"]
    else wbs [ascii "(", ascii "type", ascii "regular", ascii "contents"]) ++
      frameStr contents ++ wbs [ascii ")"]
  | .symlink target =>
    wbs [ascii "(", ascii "type", ascii "symlink", ascii "target", target, ascii ")"]
  | .directory es => dirHeader ++ specEntries (sortE es) ++ closeTok
termination_by t => mNode t
decreasing_by
  have hins : ∀ (n : List Nat) (c : FSNode) (l : List (List Nat × FSNode)),
      mEntL (insertE n c l) ≤ 1 + mNode c + mEntL l := by
    intro n c l
    induction l with
    | nil => simp [insertE, mEntL]
    | cons p r ih =>
      obtain ⟨m, d⟩ := p
      unfold insertE
      split
      · simp [mEntL]
      · split
        · simp only [mEntL]
          omega
        · simp only [mEntL]
          omega
  have hgo : ∀ (es acc : List (List Nat × FSNode)),
      mEntL (sortGo es acc) ≤ mEntL es + mEntL acc := by
    intro es
    induction es with
    | nil => intro acc; simp [sortGo, mEntL]
    | cons p r ih =>
      obtain ⟨n, c⟩ := p
      intro acc
      calc mEntL (sortGo ((n, c) :: r) acc) = mEntL (sortGo r (insertE n c acc)) := rfl
        _ ≤ mEntL r + mEntL (insertE n c acc) := ih _
        _ ≤ mEntL r + (1 + mNode c + mEntL acc) := by have := hins n c acc; omega
        _ = mEntL ((n, c) :: r) + mEntL acc := by simp only [mEntL]; omega
  have hs := hgo es []
  simp only [mEntL] at hs
  simp only [sortE, mNode]
  omega

def specEntries : List (List Nat × FSNode) → List Nat
  | [] => []
  | (n, c) :: r => entryHeader n ++ specNode c ++ closeTok ++ specEntries r
termination_by l => mEntL l
decreasing_by
  · simp only [mEntL]; omega
  · simp only [mEntL]; omega
end

/-- From `src/nar.rs` `dump_contents`: reads the file in chunks of at most
16384 bytes; a model file read yields `min 16384 (remaining)` bytes. Returns
the bytes pushed to the channel and whether the dump succeeded: reading
fewer bytes than `expected_size` bails (`Unexpected end of file`), and a
read beyond the expected count bails (`Read more bytes than expected`);
padding is sent only after a read of 0 with nothing left. -/
def dumpContentsRun : List Nat → Nat → Nat → List Nat × Bool
  | [], left, expected =>
    if left ≠ 0 then ([], false)
    else (List.replicate (alignment expected) 0, true)
  | a :: t, left, expected =>
    let n := min 16384 (a :: t).length
    if n > left then ([], false)
    else
      let r := dumpContentsRun ((a :: t).drop n) (left - n) expected
      ((a :: t).take n ++ r.1, r.2)
termination_by file _ _ => file.length
decreasing_by
  simp only [List.length_drop, List.length_cons]
  omega

/-- From `src/nar.rs` `dump_file`: header (with the `executable` marker iff
the owner-execute bit `0o100` is set), the u64 size, the contents with
padding, and the closing token; `none` models a bail. -/
def dumpFileBytes (mode : Nat) (contents : List Nat) : Option (List Nat) :=
  let header := if mode &&& 0o100 ≠ 0 then
      wbs [ascii "(", ascii "type", ascii "regular", ascii "executable",
        ascii "", ascii "contents"]
    else wbs [ascii "(", ascii "type", ascii "regular", ascii "contents"]
  match dumpContentsRun contents contents.length contents.length with
  | (sent, true) => some (header ++ u64le contents.length ++ sent ++ wbs [ascii ")"])
  | (_, false) => none

/-- From `src/nar.rs` `dump_symlink`. -/
def dumpSymlinkBytes (target : List Nat) : List Nat :=
  wbs [ascii "(", ascii "type", ascii "symlink", ascii "target", target, ascii ")"]

/-- From `src/nar.rs` `Frame`: the walker's per-directory state. `children`
is the sorted pending-children map (`None` for non-directories and for
directories whose map would be empty). -/
structure NarFrame where
  node : FSNode
  children : Option (List (List Nat × FSNode))
  firstChild : Bool

def isNilL (l : List (List Nat × FSNode)) : Bool :=
  match l with
  | [] => true
  | _ => false

/-- From `src/nar.rs` `Frame::new`: directory entries are collected into a
`BTreeMap` keyed by (case-hack-stripped, which on non-macOS is the identity)
name; an empty map is stored as `None`. -/
def childrenOf (t : FSNode) : Option (List (List Nat × FSNode)) :=
  match t with
  | .directory es =>
    let l := sortE es
    if isNilL l then none else some l
  | _ => none

def newFrame (t : FSNode) : NarFrame := ⟨t, childrenOf t, true⟩

/-- From `src/nar.rs` `dump_path`: one `while let Some(frame) = stack.last_mut()`
loop, run with fuel (the loop in the stuck state `directory/None/!first_child`
never terminates in the source; here it exhausts the fuel). -/
def runDump (fuel : Nat) (stack : List NarFrame) : Option (List Nat) :=
  match fuel with
  | 0 => none
  | fuel + 1 =>
    match stack with
    | [] => some []
    | f :: rest =>
      match f.node with
      | .regular mode contents =>
        match dumpFileBytes mode contents with
        | none => none
        | some bs => (runDump fuel rest).map (fun out => bs ++ out)
      | .symlink target =>
        (runDump fuel rest).map (fun out => dumpSymlinkBytes target ++ out)
      | .directory _ =>
        if f.firstChild then
          match f.children with
          | none => (runDump fuel rest).map (fun out => dirHeader ++ closeTok ++ out)
          | some [] => (runDump fuel rest).map (fun out => dirHeader ++ closeTok ++ out)
          | some ((n, c) :: l2) =>
            (runDump fuel (newFrame c :: ⟨f.node, some l2, false⟩ :: rest)).map
              (fun out => dirHeader ++ entryHeader n ++ out)
        else
          match f.children with
          | none => runDump fuel (f :: rest)
          | some [] => (runDump fuel rest).map (fun out => closeTok ++ closeTok ++ out)
          | some ((n, c) :: l2) =>
            (runDump fuel (newFrame c :: ⟨f.node, some l2, false⟩ :: rest)).map
              (fun out => closeTok ++ entryHeader n ++ out)

/-- From `src/nar.rs` `dump_path`: the framed magic followed by the walk. -/
def narDump (t : FSNode) : Option (List Nat) :=
  (runDump (mNode t + 1) [newFrame t]).map
    (fun out => wbs [ascii "nix-archive-1"] ++ out)

/-- The bytes a frame still owes to the output stream. -/
def framePending (f : NarFrame) : List Nat :=
  match f.node with
  | .regular mode contents => specNode (.regular mode contents)
  | .symlink target => specNode (.symlink target)
  | .directory _ =>
    match f.children with
    | none => if f.firstChild then dirHeader ++ closeTok else closeTok
    | some l =>
      (if f.firstChild then dirHeader else closeTok) ++ specEntries l ++ closeTok

def pendingAll (stack : List NarFrame) : List Nat :=
  (stack.map framePending).flatten

def frameMeasure (f : NarFrame) : Nat :=
  match f.children with
  | none => 1
  | some l => 1 + mEntL l

def stackMeasure (stack : List NarFrame) : Nat :=
  (stack.map frameMeasure).sum

def wfFrame (f : NarFrame) : Prop :=
  match f.node, f.children, f.firstChild with
  | .directory _, none, false => False
  | _, _, _ => True

def wfStack (stack : List NarFrame) : Prop := ∀ f ∈ stack, wfFrame f

/-- From `src/narlist.rs` `NarEntry::Regular`. -/
structure NarRegularEntry where
  narOffset : Option Nat
  size : Nat
  executable : Bool
deriving DecidableEq

/-- From `src/narlist.rs` `file_entry`: the archive lister's JSON entry for
a regular file, whose `executable` flag tests any execute bit (0o111). -/
def file_entry (mode size : Nat) : NarRegularEntry :=
  ⟨none, size, mode &&& 0o111 != 0⟩

/-- From `src/nar.rs` `get`, the range-slicing stage: receives the chunk
stream, counts bytes in `send`, and for each chunk overlapping the window
computes `start` and `end` and forwards `data.slice(start..end)`
(`Bytes::slice` panics, modelled as `none`, when `end` exceeds the chunk
length or `start > end`). -/
def sliceStage : List (List Nat) → Nat → Nat → Nat → Option (List (List Nat))
  | [], _, _, _ => some []
  | data :: restChunks, send, offset, rlength =>
    if send + data.length > offset then
      let start := if send < offset then offset - send else 0
      let e := if send + data.length > offset + rlength then start + rlength
        else data.length
      if start ≤ e ∧ e ≤ data.length then
        match sliceStage restChunks (send + data.length) offset rlength with
        | none => none
        | some out => some ((data.drop start).take (e - start) :: out)
      else none
    else sliceStage restChunks (send + data.length) offset rlength

/-- HTTP response model: status code and body. -/
structure HttpResp where
  status : Nat
  body : List Nat
deriving DecidableEq

/-- From `harmonia/src/main.rs` `nixhash`: `None` unless the hash has
exactly 32 characters; otherwise the store lookup (an FFI call into
`libnixstore`, here a parameter) runs. -/
def nixhash (oracle : List Nat → Option (List Nat)) (hash : List Nat) :
    Option (List Nat) :=
  if hash.length ≠ 32 then none
  else oracle hash

/-- From `harmonia/src/main.rs` `some_or_404` as used by the handlers
(e.g. `narinfo::get` line 120): a `None` from `nixhash` returns 404
`missed hash` (with `Cache-Control: no-store`); otherwise the handler
continues with the store path. -/
def handlerWithNixhash (oracle : List Nat → Option (List Nat))
    (cont : List Nat → HttpResp) (hash : List Nat) : HttpResp :=
  match nixhash oracle hash with
  | none => ⟨404, ascii "missed hash"⟩
  | some storePath => cont storePath

theorem u64le_length (n : Nat) : (u64le n).length = 8 := rfl

theorem decodeU64_u64le (n : Nat) (rest : List Nat) (h : n < 2 ^ 64) :
    decodeU64 ((u64le n ++ rest).take 8) = n := by
  simp [u64le, decodeU64, List.getD]
  omega

theorem BASE32_CHARS_length : BASE32_CHARS.length = 32 := rfl

theorem nix32_bits_arith (x y j m : Nat) (hx : x < 256) (hj : j < 8) (hm : m < 5) :
    (((x >>> j) ||| (if j = 0 then 0 else (y <<< (8 - j)) % 256)) % 32).testBit m =
      (if j + m < 8 then x.testBit (j + m) else y.testBit (j + m - 8)) := by
  have h32 : (32 : Nat) = 2 ^ 5 := by norm_num
  have h256 : (256 : Nat) = 2 ^ 8 := by norm_num
  rw [h32, Nat.testBit_mod_two_pow, Nat.testBit_or, Nat.testBit_shiftRight,
    decide_eq_true hm, Bool.true_and]
  by_cases hcase : j + m < 8
  · rw [if_pos hcase]
    have hv2 : (if j = 0 then 0 else (y <<< (8 - j)) % 256).testBit m = false := by
      by_cases hj0 : j = 0
      · simp [hj0]
      · rw [if_neg hj0, h256, Nat.testBit_mod_two_pow, Nat.testBit_shiftLeft]
        have : ¬ (m ≥ 8 - j) := by omega
        simp [this]
    rw [hv2, Bool.or_false]
  · rw [if_neg hcase]
    have hj0 : ¬ (j = 0) := by omega
    have hxp : x < 2 ^ (j + m) := by
      calc x < 256 := hx
        _ = 2 ^ 8 := by norm_num
        _ ≤ 2 ^ (j + m) := Nat.pow_le_pow_right (by norm_num) (by omega)
    have hv1 : x.testBit (j + m) = false := Nat.testBit_lt_two_pow hxp
    rw [hv1, Bool.false_or, if_neg hj0, h256, Nat.testBit_mod_two_pow, Nat.testBit_shiftLeft]
    have hge : m ≥ 8 - j := by omega
    have hsub : m - (8 - j) = j + m - 8 := by omega
    simp [hge, hsub, show m < 8 by omega]

theorem nix32CharVal_bits (bytes : List Nat) (n : Nat)
    (hb : ∀ b ∈ bytes, b < 256) (hin : n * 5 / 8 < bytes.length) (m : Nat) (hm : m < 5) :
    (nix32CharVal bytes n).testBit m = streamBit bytes (n * 5 + m) := by
  have hx : bytes.getD (n * 5 / 8) 0 < 256 := by
    rw [List.getD_eq_getElem bytes 0 hin]
    exact hb _ (List.getElem_mem _)
  have hj8 : n * 5 % 8 < 8 := Nat.mod_lt _ (by norm_num)
  have hv2 : (if n * 5 / 8 ≥ bytes.length - 1 then 0
      else if n * 5 % 8 = 0 then 0
      else (bytes.getD (n * 5 / 8 + 1) 0 <<< (8 - n * 5 % 8)) % 256) =
      (if n * 5 % 8 = 0 then 0
      else (bytes.getD (n * 5 / 8 + 1) 0 <<< (8 - n * 5 % 8)) % 256) := by
    by_cases hbnd : n * 5 / 8 ≥ bytes.length - 1
    · have hy0 : bytes.getD (n * 5 / 8 + 1) 0 = 0 := by
        have hge : bytes.length ≤ n * 5 / 8 + 1 := by omega
        exact List.getD_eq_default _ _ hge
      rw [if_pos hbnd, hy0]
      by_cases hj0 : n * 5 % 8 = 0
      · rw [if_pos hj0]
      · rw [if_neg hj0, Nat.zero_shiftLeft, Nat.zero_mod]
    · rw [if_neg hbnd]
  unfold nix32CharVal streamBit
  simp only []
  rw [hv2, nix32_bits_arith _ _ _ _ hx hj8 hm]
  by_cases hcase : n * 5 % 8 + m < 8
  · rw [if_pos hcase]
    have hdiv : (n * 5 + m) / 8 = n * 5 / 8 := by omega
    have hmod : (n * 5 + m) % 8 = n * 5 % 8 + m := by omega
    rw [hdiv, hmod]
  · rw [if_neg hcase]
    have hdiv : (n * 5 + m) / 8 = n * 5 / 8 + 1 := by omega
    have hmod : (n * 5 + m) % 8 = n * 5 % 8 + m - 8 := by omega
    rw [hdiv, hmod]

theorem base32_getD_mem (v : Nat) (hv : v < 32) : BASE32_CHARS.getD v 0 ∈ BASE32_CHARS := by
  rw [List.getD_eq_getElem BASE32_CHARS 0 (by rw [BASE32_CHARS_length]; exact hv)]
  exact List.getElem_mem _

/-- C4 (amended): for every nonempty byte string the base-32 encoding has
length (8·N+4)/5, uses only the 32-character alphabet, and character n
(0-indexed from the least significant end) encodes the 5 bits starting at
bit n·5 of the little-endian input; on the empty string the code panics. -/
theorem c4_to_nix_base32 (bytes : List Nat) (hne : bytes ≠ [])
    (hb : ∀ b ∈ bytes, b < 256) :
    ∃ out, toNixBase32 bytes = some out ∧
      out.length = (8 * bytes.length + 4) / 5 ∧
      (∀ c ∈ out, c ∈ BASE32_CHARS) ∧
      (∀ n, n < out.length → ∃ v, v < 32 ∧
        out.getD (out.length - 1 - n) 0 = BASE32_CHARS.getD v 0 ∧
        ∀ m, m < 5 → v.testBit m = streamBit bytes (n * 5 + m)) := by
  have hN : 0 < bytes.length := List.length_pos.mpr hne
  refine ⟨(List.range ((bytes.length * 8 - 1) / 5 + 1)).reverse.map (nix32Char bytes), ?_, ?_, ?_, ?_⟩
  · unfold toNixBase32
    rw [if_neg (by omega)]
  · simp only [List.length_map, List.length_reverse, List.length_range]
    omega
  · intro c hc
    rw [List.mem_map] at hc
    obtain ⟨k, _, hk⟩ := hc
    rw [← hk]
    unfold nix32Char
    exact base32_getD_mem _ (Nat.mod_lt _ (by norm_num))
  · intro n hn
    simp only [List.length_map, List.length_reverse, List.length_range] at hn ⊢
    refine ⟨nix32CharVal bytes n, Nat.mod_lt _ (by norm_num), ?_, ?_⟩
    · set len := (bytes.length * 8 - 1) / 5 + 1 with hlen
      have hidx : len - 1 - n < len := by omega
      rw [List.getD_eq_getElem _ 0 (by simpa using hidx)]
      rw [List.getElem_map, List.getElem_reverse, List.getElem_range]
      have : len - 1 - (len - 1 - n) = n := by omega
      simp only [List.length_range]
      rw [show len - 1 - (len - 1 - n) = n from by omega]
      rfl
    · intro m hm
      refine nix32CharVal_bits bytes n hb ?_ m hm
      omega

/-- C4 counterexample: the claim includes the empty string, but on the empty
string `to_nix_base32` underflows (`bytes.len() * 8 - 1` on usize) and
panics; no encoding is produced. -/
theorem c4_empty_counterexample : toNixBase32 [] = none := rfl

/-- C4 witness at a concrete input. -/
theorem c4_witness :
    ([1] ≠ ([] : List Nat)) ∧
      (∃ out, toNixBase32 [1] = some out ∧
        out.length = (8 * [1].length + 4) / 5 ∧
        (∀ c ∈ out, c ∈ BASE32_CHARS) ∧
        (∀ n, n < out.length → ∃ v, v < 32 ∧
          out.getD (out.length - 1 - n) 0 = BASE32_CHARS.getD v 0 ∧
          ∀ m, m < 5 → v.testBit m = streamBit [1] (n * 5 + m))) :=
  ⟨by decide, c4_to_nix_base32 [1] (by decide) (by decide)⟩

theorem refsCheck_none (storeDir : List Nat) (refs : List (List Nat))
    (h : ∀ r ∈ refs, storeDir.length ≤ r.length ∧ r.take storeDir.length = storeDir) :
    refsCheck storeDir refs = none := by
  induction refs with
  | nil => rfl
  | cons r rest ih =>
    obtain ⟨h1, h2⟩ := h r (by simp)
    unfold refsCheck
    rw [if_neg (by omega), if_neg (by simpa using h2)]
    exact ih (fun x hx => h x (by simp [hx]))

theorem refsCheck_bad (storeDir : List Nat) (refs : List (List Nat))
    (h : ∃ r ∈ refs, ¬(storeDir.length ≤ r.length ∧ r.take storeDir.length = storeDir)) :
    ∃ fr, refsCheck storeDir refs = some fr ∧ (fr = .panicked ∨ fr = .errored) := by
  induction refs with
  | nil => simp at h
  | cons r rest ih =>
    by_cases hlen : r.length < storeDir.length
    · exact ⟨.panicked, by unfold refsCheck; rw [if_pos hlen], Or.inl rfl⟩
    · by_cases htake : r.take storeDir.length = storeDir
      · have hr : ∃ x ∈ rest, ¬(storeDir.length ≤ x.length ∧ x.take storeDir.length = storeDir) := by
          obtain ⟨x, hx, hbad⟩ := h
          rcases List.mem_cons.mp hx with hx | hx
          · subst hx
            exact absurd ⟨by omega, htake⟩ hbad
          · exact ⟨x, hx, hbad⟩
        obtain ⟨fr, hfr, hk⟩ := ih hr
        refine ⟨fr, ?_, hk⟩
        unfold refsCheck
        rw [if_neg hlen, if_neg (by simpa using htake)]
        exact hfr
      · exact ⟨.errored, by unfold refsCheck; rw [if_neg hlen, if_pos (by simpa using htake)], Or.inr rfl⟩

/-- C5 (amended): `fingerprint_path` returns the fingerprint string when the
store path and every reference begin with the store directory and the nar
hash starts with `sha256:` and has length 59; it never returns successfully
when any of those conditions fails, but a nar hash that does not start with
`sha256:` makes it panic (an `assert!`), and a reference shorter than the
store directory makes it panic (string-slice out of bounds), rather than
return an error. -/
theorem c5_fingerprint_path (storeDir storePath narHash : List Nat) (narSize : Nat)
    (refs : List (List Nat)) :
    ((storeDir.length ≤ storePath.length ∧ storePath.take storeDir.length = storeDir) →
      narHash.take 7 = ascii "sha256:" → narHash.length = 59 →
      (∀ r ∈ refs, storeDir.length ≤ r.length ∧ r.take storeDir.length = storeDir) →
      fingerprintPath storeDir storePath narHash narSize refs =
        .ok (ascii "1;" ++ storePath ++ ascii ";" ++ narHash ++ ascii ";" ++
          natDecimal narSize ++ ascii ";" ++ (ascii ",").intercalate refs)) ∧
    ((¬(storeDir.length ≤ storePath.length ∧ storePath.take storeDir.length = storeDir) ∨
      ¬(narHash.take 7 = ascii "sha256:" ∧ narHash.length = 59) ∨
      (∃ r ∈ refs, ¬(storeDir.length ≤ r.length ∧ r.take storeDir.length = storeDir))) →
      ∀ s, fingerprintPath storeDir storePath narHash narSize refs ≠ .ok s) ∧
    ((storeDir.length ≤ storePath.length ∧ storePath.take storeDir.length = storeDir) →
      narHash.take 7 ≠ ascii "sha256:" →
      fingerprintPath storeDir storePath narHash narSize refs = .panicked) := by
  refine ⟨?_, ?_, ?_⟩
  · rintro ⟨hl, ht⟩ hh7 hh59 hrefs
    unfold fingerprintPath
    rw [if_neg (by omega), if_neg (by simpa using ht), if_neg (by simpa using hh7),
      if_neg (by simpa using hh59), refsCheck_none storeDir refs hrefs]
  · intro hbad s
    unfold fingerprintPath
    by_cases h1 : storePath.length < storeDir.length
    · rw [if_pos h1]; simp
    · rw [if_neg h1]
      by_cases h2 : storePath.take storeDir.length = storeDir
      · rw [if_neg (by simpa using h2)]
        by_cases h3 : narHash.take 7 = ascii "sha256:"
        · rw [if_neg (by simpa using h3)]
          by_cases h4 : narHash.length = 59
          · rw [if_neg (by simpa using h4)]
            have hrefs : ∃ r ∈ refs, ¬(storeDir.length ≤ r.length ∧ r.take storeDir.length = storeDir) := by
              rcases hbad with hb | hb | hb
              · exact absurd ⟨by omega, h2⟩ hb
              · exact absurd ⟨h3, h4⟩ hb
              · exact hb
            obtain ⟨fr, hfr, hk⟩ := refsCheck_bad storeDir refs hrefs
            rw [hfr]
            rcases hk with hk | hk <;> simp [hk]
          · rw [if_pos (by simpa using h4)]; simp
        · rw [if_pos (by simpa using h3)]; simp
      · rw [if_pos (by simpa using h2)]; simp
  · rintro ⟨hl, ht⟩ hh7
    unfold fingerprintPath
    rw [if_neg (by omega), if_neg (by simpa using ht), if_pos (by simpa using hh7)]

/-- C5 counterexample: with a valid store path and no references, a nar hash
not starting with `sha256:` makes `fingerprint_path` panic (the `assert!`),
contradicting the claim that it fails with an error rather than crashing. -/
theorem c5_counterexample :
    fingerprintPath (ascii "/nix/store") (ascii "/nix/store/x") (ascii "md5:aaaa") 0 [] =
        .panicked ∧
      FpResult.panicked ≠ FpResult.errored ∧
      ∀ s, FpResult.panicked ≠ FpResult.ok s := by
  refine ⟨by decide, by decide, fun s => by simp⟩

/-- C5 witness at concrete inputs (the repository's own test vector). -/
theorem c5_witness :
    fingerprintPath (ascii "/nix/store")
        (ascii "/nix/store/26xbg1ndr7hbcncrlf9nhx5is2b25d13-hello-2.12.1")
        (ascii "sha256:1mkvday29m2qxg1fnbv8xh9s6151bh8a2xzhh0k86j7lqhyfwibh")
        226560 [ascii "/nix/store/sl141d1g77wvhr050ah87lcyz2czdxa3-glibc-2.40-36"] =
      .ok (ascii "1;/nix/store/26xbg1ndr7hbcncrlf9nhx5is2b25d13-hello-2.12.1;sha256:1mkvday29m2qxg1fnbv8xh9s6151bh8a2xzhh0k86j7lqhyfwibh;226560;/nix/store/sl141d1g77wvhr050ah87lcyz2czdxa3-glibc-2.40-36") := by
  have h := (c5_fingerprint_path (ascii "/nix/store")
    (ascii "/nix/store/26xbg1ndr7hbcncrlf9nhx5is2b25d13-hello-2.12.1")
    (ascii "sha256:1mkvday29m2qxg1fnbv8xh9s6151bh8a2xzhh0k86j7lqhyfwibh")
    226560 [ascii "/nix/store/sl141d1g77wvhr050ah87lcyz2czdxa3-glibc-2.40-36"]).1
    (by decide) (by decide) (by decide) (by decide)
  rw [h]
  decide

theorem sockInv_cReadNum (world : DWorld) (c : ConnSt) : sockInv (cReadNum world c) := by
  unfold sockInv cReadNum
  rcases hc : connectC world c with e | s <;> simp [hc]
  rcases hr : readNum s with e | ⟨v, s1⟩ <;> simp [hr]

theorem sockInv_cWriteNum (world : DWorld) (c : ConnSt) (n : Nat) :
    sockInv (cWriteNum world c n) := by
  unfold sockInv cWriteNum
  rcases hc : connectC world c with e | s <;> simp [hc]

theorem sockInv_cWriteString (world : DWorld) (c : ConnSt) (s : List Nat) :
    sockInv (cWriteString world c s) := by
  unfold sockInv cWriteString
  rcases hc : connectC world c with e | sk <;> simp [hc]

theorem sockInv_cReadString (world : DWorld) (c : ConnSt) : sockInv (cReadString world c) := by
  unfold sockInv cReadString
  rcases hc : connectC world c with e | s <;> simp [hc]
  rcases hr : readString s with e | ⟨v, s1⟩ <;> simp [hr]

theorem sockInv_cReadStringList (world : DWorld) (c : ConnSt) :
    sockInv (cReadStringList world c) := by
  unfold sockInv cReadStringList
  rcases hc : connectC world c with e | s <;> simp [hc]
  rcases hr : readStringList s with e | ⟨v, s1⟩ <;> simp [hr]

theorem sockInv_cForwardStderr (world : DWorld) (c : ConnSt) :
    sockInv (cForwardStderr world c) := by
  unfold sockInv cForwardStderr
  rcases hc : connectC world c with e | s <;> simp [hc]
  rcases hr : forwardStderr (s.input.length + 1) s with e | s1 <;> simp [hr]

theorem sockInv_opBind {α β : Type} (r : Except DErr α × ConnSt)
    (f : α → ConnSt → Except DErr β × ConnSt)
    (hr : sockInv r) (hf : ∀ a c1, c1.socket.isSome → sockInv (f a c1)) :
    sockInv (opBind r f) := by
  rcases r with ⟨res, c⟩
  cases res with
  | error e => exact hr
  | ok a => exact hf a c hr

theorem sockInv_isValidPath (world : DWorld) (c : ConnSt) (path : List Nat) :
    sockInv (isValidPath world c path) := by
  unfold isValidPath
  refine sockInv_opBind _ _ (sockInv_cWriteNum world c 1) fun _ c1 _ => ?_
  refine sockInv_opBind _ _ (sockInv_cWriteString world c1 path) fun _ c2 _ => ?_
  refine sockInv_opBind _ _ (sockInv_cForwardStderr world c2) fun _ c3 _ => ?_
  refine sockInv_opBind _ _ (sockInv_cReadNum world c3) fun _ c4 h4 => ?_
  exact h4

theorem sockInv_queryPathFromHashPart (world : DWorld) (c : ConnSt) (hashPart : List Nat) :
    sockInv (queryPathFromHashPart world c hashPart) := by
  unfold queryPathFromHashPart
  refine sockInv_opBind _ _ (sockInv_cWriteNum world c 29) fun _ c1 _ => ?_
  refine sockInv_opBind _ _ (sockInv_cWriteString world c1 hashPart) fun _ c2 _ => ?_
  refine sockInv_opBind _ _ (sockInv_cForwardStderr world c2) fun _ c3 _ => ?_
  refine sockInv_opBind _ _ (sockInv_cReadString world c3) fun _ c4 h4 => ?_
  exact h4

theorem sockInv_queryPathInfo (world : DWorld) (c : ConnSt) (path : List Nat) :
    sockInv (queryPathInfo world c path) := by
  unfold queryPathInfo
  refine sockInv_opBind _ _ (sockInv_cWriteNum world c 26) fun _ c1 _ => ?_
  refine sockInv_opBind _ _ (sockInv_cWriteString world c1 path) fun _ c2 _ => ?_
  refine sockInv_opBind _ _ (sockInv_cForwardStderr world c2) fun _ c3 _ => ?_
  refine sockInv_opBind _ _ (sockInv_cReadNum world c3) fun flag c4 h4 => ?_
  by_cases hf : flag = 0
  · simp only [hf, if_pos rfl]
    exact h4
  · rw [if_neg hf]
    refine sockInv_opBind _ _ (sockInv_cReadString world c4) fun _ c5 _ => ?_
    refine sockInv_opBind _ _ (sockInv_cReadString world c5) fun _ c6 _ => ?_
    refine sockInv_opBind _ _ (sockInv_cReadStringList world c6) fun _ c7 _ => ?_
    refine sockInv_opBind _ _ (sockInv_cReadNum world c7) fun _ c8 _ => ?_
    refine sockInv_opBind _ _ (sockInv_cReadNum world c8) fun _ c9 _ => ?_
    refine sockInv_opBind _ _ (sockInv_cReadNum world c9) fun _ c10 _ => ?_
    refine sockInv_opBind _ _ (sockInv_cReadStringList world c10) fun _ c11 _ => ?_
    refine sockInv_opBind _ _ (sockInv_cReadString world c11) fun _ c12 h12 => ?_
    exact h12

/-- C7: for each public daemon operation, an error leaves the session's
stored socket `None` (so the next operation re-dials and re-runs the
handshake via `connect`), and a successful operation leaves the established
socket in place. -/
theorem c7_session_recovery (world : DWorld) (c : ConnSt) (s : List Nat) :
    ((∀ e c', isValidPath world c s = (.error e, c') → c'.socket = none) ∧
      (∀ v c', isValidPath world c s = (.ok v, c') → c'.socket.isSome)) ∧
    ((∀ e c', queryPathFromHashPart world c s = (.error e, c') → c'.socket = none) ∧
      (∀ v c', queryPathFromHashPart world c s = (.ok v, c') → c'.socket.isSome)) ∧
    ((∀ e c', queryPathInfo world c s = (.error e, c') → c'.socket = none) ∧
      (∀ v c', queryPathInfo world c s = (.ok v, c') → c'.socket.isSome)) := by
  refine ⟨⟨?_, ?_⟩, ⟨?_, ?_⟩, ⟨?_, ?_⟩⟩ <;> intro x c' heq
  · have h := sockInv_isValidPath world c s
    rw [heq] at h; exact h
  · have h := sockInv_isValidPath world c s
    rw [heq] at h; exact h
  · have h := sockInv_queryPathFromHashPart world c s
    rw [heq] at h; exact h
  · have h := sockInv_queryPathFromHashPart world c s
    rw [heq] at h; exact h
  · have h := sockInv_queryPathInfo world c s
    rw [heq] at h; exact h
  · have h := sockInv_queryPathInfo world c s
    rw [heq] at h; exact h

/-- C7 witness: with no reachable daemon the operation fails and the stored
socket is `None` afterwards. -/
theorem c7_witness :
    isValidPath ⟨none⟩ ⟨none⟩ [] = (.error .dialFailed, ⟨none⟩) ∧
      (ConnSt.mk none).socket = none :=
  ⟨rfl, (c7_session_recovery ⟨none⟩ ⟨none⟩ []).1.1 .dialFailed ⟨none⟩ rfl⟩

theorem readNum_u64le (n : Nat) (rest : List Nat) (out : List Nat) (h : n < 2 ^ 64) :
    readNum ⟨u64le n ++ rest, out⟩ = .ok (n, ⟨rest, out⟩) := by
  unfold readNum readExact
  rw [if_pos (by simp [u64le])]
  show Except.ok (decodeU64 ((u64le n ++ rest).take 8), (⟨(u64le n ++ rest).drop 8, out⟩ : Wire)) = _
  rw [decodeU64_u64le n rest h, List.drop_left' (by simp [u64le])]

theorem aligned_eq_alignment (L : Nat) : (L + 7) / 8 * 8 = L + alignment L := by
  unfold alignment
  simp only
  split <;> omega

theorem readString_frame (s rest out : List Nat) (hlen : s.length + 8 < 2 ^ 64)
    (hutf : utf8Valid s = true) :
    readString ⟨frameStr s ++ rest, out⟩ = .ok (s, ⟨rest, out⟩) := by
  unfold readString frameStr
  rw [List.append_assoc, List.append_assoc]
  rw [readNum_u64le s.length _ out (by omega)]
  show (match readExact ((s.length + 7) / 8 * 8)
      ⟨s ++ (List.replicate (alignment s.length) 0 ++ rest), out⟩ with
    | none => Except.error DErr.shortRead
    | some (buf, w2) =>
      if utf8Valid (buf.take s.length) = true then Except.ok (buf.take s.length, w2)
      else Except.error DErr.badUtf8) = _
  rw [← List.append_assoc]
  unfold readExact
  rw [aligned_eq_alignment]
  have hl : (s ++ List.replicate (alignment s.length) 0).length =
      s.length + alignment s.length := by simp
  rw [if_pos (by simp)]
  rw [List.take_left' hl, List.drop_left' hl]
  have hts : (s ++ List.replicate (alignment s.length) 0).take s.length = s :=
    List.take_left' rfl
  show (if utf8Valid ((s ++ List.replicate (alignment s.length) 0).take s.length) = true
      then Except.ok ((s ++ List.replicate (alignment s.length) 0).take s.length,
        (⟨rest, out⟩ : Wire))
      else Except.error DErr.badUtf8) = _
  rw [hts, if_pos hutf]

theorem readStrings_frames (l : List (List Nat)) (rest out : List Nat)
    (h : ∀ f ∈ l, utf8Valid f = true ∧ f.length + 8 < 2 ^ 64) :
    readStrings l.length ⟨(l.map frameStr).flatten ++ rest, out⟩ = .ok (l, ⟨rest, out⟩) := by
  induction l generalizing out with
  | nil => rfl
  | cons f l ih =>
    obtain ⟨h1, h2⟩ := h f (by simp)
    simp only [List.map_cons, List.flatten_cons, List.length_cons]
    rw [List.append_assoc]
    unfold readStrings
    rw [readString_frame f _ out h2 h1]
    show (match readStrings l.length ⟨(l.map frameStr).flatten ++ rest, out⟩ with
      | Except.error e => Except.error e
      | Except.ok (ss, w2) => Except.ok (f :: ss, w2)) = Except.ok (f :: l, (⟨rest, out⟩ : Wire))
    rw [ih out (fun x hx => h x (by simp [hx]))]

theorem readStringList_frames (l : List (List Nat)) (rest out : List Nat)
    (hc : l.length < 2 ^ 64)
    (h : ∀ f ∈ l, utf8Valid f = true ∧ f.length + 8 < 2 ^ 64) :
    readStringList ⟨encodeStringList l ++ rest, out⟩ = .ok (l, ⟨rest, out⟩) := by
  unfold readStringList encodeStringList
  rw [List.append_assoc, readNum_u64le l.length _ out hc]
  show readStrings l.length ⟨(l.map frameStr).flatten ++ rest, out⟩ = _
  exact readStrings_frames l rest out h

theorem forwardStderr_last (fu : Nat) (rest out : List Nat) :
    forwardStderr (fu + 1) ⟨u64le 0x616c7473 ++ rest, out⟩ = .ok ⟨rest, out⟩ := by
  unfold forwardStderr
  rw [readNum_u64le 0x616c7473 rest out (by norm_num)]
  norm_num


/-- C6: the handshake fails on a wrong magic, fails on a protocol version
below 0x126, and otherwise writes the client version 0x126 plus two zero
u64s, reads the feature list, writes an empty feature list, reads the daemon
version and trust flag, and drains the logger side-channel before returning
success. -/
theorem c6_handshake (out : List Nat) :
    (∀ m rest, m < 2 ^ 64 → m ≠ WORKER_MAGIC_2 →
      handshake ⟨u64le m ++ rest, out⟩ = .error .badMagic) ∧
    (∀ v rest, v < 2 ^ 64 → v < PROTOCOL_1_38 →
      handshake ⟨u64le WORKER_MAGIC_2 ++ u64le v ++ rest, out⟩ = .error .badVersion) ∧
    (∀ v feats dver t rest,
      v < 2 ^ 64 → PROTOCOL_1_38 ≤ v →
      feats.length < 2 ^ 64 →
      (∀ f ∈ feats, utf8Valid f = true ∧ f.length + 8 < 2 ^ 64) →
      utf8Valid dver = true → dver.length + 8 < 2 ^ 64 →
      t < 2 ^ 64 →
      handshake ⟨u64le WORKER_MAGIC_2 ++ u64le v ++ encodeStringList feats ++
          frameStr dver ++ u64le t ++ u64le 0x616c7473 ++ rest, out⟩ =
        .ok (⟨feats, dver, t == 1⟩,
          ⟨rest, out ++ u64le WORKER_MAGIC_1 ++ u64le PROTOCOL_1_38 ++ u64le 0 ++
            u64le 0 ++ u64le 0⟩)) := by
  refine ⟨?_, ?_, ?_⟩
  · intro m rest hm hne
    unfold handshake writeNum
    simp only
    rw [readNum_u64le m rest _ hm]
    simp only
    rw [if_pos hne]
  · intro v rest hv64 hvlt
    unfold handshake writeNum
    simp only [List.append_assoc]
    rw [readNum_u64le WORKER_MAGIC_2 _ _ (by decide)]
    simp only
    rw [if_neg (by simp)]
    rw [readNum_u64le v rest _ hv64]
    simp only
    rw [if_pos hvlt]
  · intro v feats dver t rest hv64 hvge hfc hfs hdu hdl ht64
    unfold handshake writeNum
    simp only [List.append_assoc]
    rw [readNum_u64le WORKER_MAGIC_2 _ _ (by decide)]
    simp only
    rw [if_neg (by simp)]
    rw [readNum_u64le v _ _ hv64]
    simp only
    rw [if_neg (by omega)]
    rw [readStringList_frames feats _ _ hfc hfs]
    simp only
    simp only [writeStringList, List.foldl]
    show (match readString (writeNum 0 ⟨frameStr dver ++ (u64le t ++ (u64le 0x616c7473 ++ rest)),
        out ++ u64le WORKER_MAGIC_1 ++ (u64le PROTOCOL_1_38 ++ (u64le 0 ++ u64le 0))⟩) with
      | Except.error e => (Except.error e : Except DErr (HandshakeData × Wire))
      | Except.ok (daemonVersion, w) =>
        match readNum w with
        | Except.error e => Except.error e
        | Except.ok (isTrusted, w) =>
          match forwardStderr (w.input.length + 1) w with
          | Except.error e => Except.error e
          | Except.ok w => Except.ok (⟨feats, daemonVersion, isTrusted == 1⟩, w)) = _
    unfold writeNum
    simp only
    rw [readString_frame dver _ _ hdl hdu]
    simp only
    rw [readNum_u64le t _ _ ht64]
    simp only
    rw [forwardStderr_last]
    simp [List.append_assoc]

/-- C6 witness: a concrete successful handshake. -/
theorem c6_witness :
    handshake ⟨u64le WORKER_MAGIC_2 ++ u64le 0x126 ++ encodeStringList [] ++
        frameStr (ascii "2.18.1") ++ u64le 1 ++ u64le 0x616c7473 ++ [], []⟩ =
      .ok (⟨[], ascii "2.18.1", true⟩,
        ⟨[], [] ++ u64le WORKER_MAGIC_1 ++ u64le PROTOCOL_1_38 ++ u64le 0 ++
          u64le 0 ++ u64le 0⟩) :=
  (c6_handshake []).2.2 0x126 [] (ascii "2.18.1") 1 [] (by decide) (by decide)
    (by decide) (by intro f hf; cases hf) (by decide) (by decide) (by decide)

theorem alignment_eq_mod (L : Nat) : alignment L = (8 - L % 8) % 8 := by
  unfold alignment
  simp only
  split <;> omega

theorem readString_short (w : Wire) (h : w.input.length < 8) :
    readString w = .error .shortRead := by
  unfold readString readNum readExact
  rw [if_neg (by omega)]

/-- C8 (amended): a well-framed string (u64 length, payload, zero padding)
is returned by `read_string` when the payload is valid UTF-8, but a
well-framed payload that is not valid UTF-8 is an error (`Failed to parse
string`), because the client decodes into a Rust `String`; a frame shorter
than its header claims is a short-read error. -/
theorem c8_read_string (s rest out : List Nat) (hlen : s.length + 8 < 2 ^ 64) :
    (utf8Valid s = true →
      readString ⟨u64le s.length ++ s ++
          List.replicate ((8 - s.length % 8) % 8) 0 ++ rest, out⟩ =
        .ok (s, ⟨rest, out⟩)) ∧
    (utf8Valid s = false →
      readString ⟨u64le s.length ++ s ++
          List.replicate ((8 - s.length % 8) % 8) 0 ++ rest, out⟩ =
        .error .badUtf8) ∧
    (∀ w : Wire, w.input.length < 8 → readString w = .error .shortRead) := by
  have hframe : u64le s.length ++ s ++ List.replicate ((8 - s.length % 8) % 8) 0 ++ rest =
      frameStr s ++ rest := by
    rw [frameStr, alignment_eq_mod]
  refine ⟨?_, ?_, fun w hw => readString_short w hw⟩
  · intro hutf
    rw [hframe]
    exact readString_frame s rest out hlen hutf
  · intro hutf
    rw [hframe]
    unfold readString frameStr
    rw [List.append_assoc, List.append_assoc]
    rw [readNum_u64le s.length _ out (by omega)]
    show (match readExact ((s.length + 7) / 8 * 8)
        ⟨s ++ (List.replicate (alignment s.length) 0 ++ rest), out⟩ with
      | none => Except.error DErr.shortRead
      | some (buf, w2) =>
        if utf8Valid (buf.take s.length) = true then Except.ok (buf.take s.length, w2)
        else Except.error DErr.badUtf8) = _
    rw [← List.append_assoc]
    unfold readExact
    rw [aligned_eq_alignment]
    have hl : (s ++ List.replicate (alignment s.length) 0).length =
        s.length + alignment s.length := by simp
    rw [if_pos (by simp)]
    rw [List.take_left' hl, List.drop_left' hl]
    show (if utf8Valid ((s ++ List.replicate (alignment s.length) 0).take s.length) = true
        then Except.ok ((s ++ List.replicate (alignment s.length) 0).take s.length,
          (⟨rest, out⟩ : Wire))
        else Except.error DErr.badUtf8) = _
    rw [List.take_left' rfl, if_neg (by simp [hutf])]

/-- C8 counterexample: a perfectly framed 1-byte string whose payload byte
is 0xFF (not UTF-8) is rejected by `read_string`, refuting the claim that
reading never fails because of the payload's byte content. -/
theorem c8_counterexample :
    readString ⟨[1, 0, 0, 0, 0, 0, 0, 0, 255, 0, 0, 0, 0, 0, 0, 0], []⟩ =
      .error .badUtf8 := rfl

/-- C8 witness: a concrete valid frame is read back. -/
theorem c8_witness :
    readString ⟨u64le (ascii "hi").length ++ ascii "hi" ++
        List.replicate ((8 - (ascii "hi").length % 8) % 8) 0 ++ [], []⟩ =
      .ok (ascii "hi", ⟨[], []⟩) :=
  (c8_read_string (ascii "hi") [] [] (by decide)).1 (by decide)

theorem dumpContentsRun_exact_aux (k : Nat) :
    ∀ (c : List Nat) (expected : Nat), c.length ≤ k →
      dumpContentsRun c c.length expected =
        (c ++ List.replicate (alignment expected) 0, true) := by
  induction k with
  | zero =>
    intro c expected hc
    have : c = [] := List.eq_nil_of_length_eq_zero (by omega)
    subst this
    rw [dumpContentsRun]
    simp
  | succ k ih =>
    intro c expected hc
    match c with
    | [] =>
      rw [dumpContentsRun]
      simp
    | a :: t =>
      rw [dumpContentsRun]
      simp only
      rw [if_neg (by simp)]
      have hlen : ((a :: t).drop (min 16384 (a :: t).length)).length =
          (a :: t).length - min 16384 (a :: t).length := by simp
      have hrec := ih ((a :: t).drop (min 16384 (a :: t).length)) expected
        (by
          simp only [List.length_drop, List.length_cons]
          simp only [List.length_cons] at hc
          omega)
      rw [hlen] at hrec
      rw [hrec]
      simp only
      rw [← List.append_assoc, List.take_append_drop]

theorem dumpContentsRun_exact (c : List Nat) (expected : Nat) :
    dumpContentsRun c c.length expected =
      (c ++ List.replicate (alignment expected) 0, true) :=
  dumpContentsRun_exact_aux c.length c expected (le_refl _)

theorem dumpContentsRun_short_aux (k : Nat) :
    ∀ (c : List Nat) (left expected : Nat), c.length ≤ k → c.length < left →
      dumpContentsRun c left expected = (c, false) := by
  induction k with
  | zero =>
    intro c left expected hc hlt
    have : c = [] := List.eq_nil_of_length_eq_zero (by omega)
    subst this
    rw [dumpContentsRun]
    simp at hlt
    rw [if_pos (by omega)]
  | succ k ih =>
    intro c left expected hc hlt
    match c with
    | [] =>
      rw [dumpContentsRun]
      simp at hlt
      rw [if_pos (by omega)]
    | a :: t =>
      rw [dumpContentsRun]
      simp only
      simp only [List.length_cons] at hc hlt
      rw [if_neg (by simp only [List.length_cons]; omega)]
      have hrec := ih ((a :: t).drop (min 16384 (a :: t).length))
        (left - min 16384 (a :: t).length) expected
        (by simp only [List.length_drop, List.length_cons]; omega)
        (by simp only [List.length_drop, List.length_cons]; omega)
      rw [hrec]
      simp only
      rw [List.take_append_drop]

theorem dumpContentsRun_short (c : List Nat) (left expected : Nat) (h : c.length < left) :
    dumpContentsRun c left expected = (c, false) :=
  dumpContentsRun_short_aux c.length c left expected (le_refl _) h

theorem dumpContentsRun_over_aux (k : Nat) :
    ∀ (c : List Nat) (left expected : Nat), c.length ≤ k → left < c.length →
      (dumpContentsRun c left expected).2 = false ∧
        (dumpContentsRun c left expected).1 <+: c := by
  induction k with
  | zero =>
    intro c left expected hc hlt
    omega
  | succ k ih =>
    intro c left expected hc hlt
    match c with
    | [] => simp at hlt
    | a :: t =>
      rw [dumpContentsRun]
      simp only
      simp only [List.length_cons] at hc hlt
      by_cases hn : min 16384 (a :: t).length > left
      · rw [if_pos hn]
        exact ⟨rfl, List.nil_prefix⟩
      · rw [if_neg hn]
        simp only [List.length_cons] at hn
        have hrec := ih ((a :: t).drop (min 16384 (a :: t).length))
          (left - min 16384 (a :: t).length) expected
          (by simp only [List.length_drop, List.length_cons]; omega)
          (by simp only [List.length_drop, List.length_cons]; omega)
        refine ⟨hrec.1, ?_⟩
        obtain ⟨tail, htail⟩ := hrec.2
        refine ⟨tail, ?_⟩
        rw [List.append_assoc, htail, List.take_append_drop]

theorem dumpFileBytes_eq (mode : Nat) (contents : List Nat) :
    dumpFileBytes mode contents = some (specNode (.regular mode contents)) := by
  unfold dumpFileBytes
  rw [dumpContentsRun_exact]
  simp only
  rw [specNode, frameStr]
  simp [List.append_assoc]

theorem mEntL_insertE_le (n : List Nat) (c : FSNode) (l : List (List Nat × FSNode)) :
    mEntL (insertE n c l) ≤ 1 + mNode c + mEntL l := by
  induction l with
  | nil => simp [insertE, mEntL]
  | cons p r ih =>
    obtain ⟨m, d⟩ := p
    unfold insertE
    split
    · simp [mEntL]
    · split
      · simp only [mEntL]
        omega
      · simp only [mEntL]
        omega

theorem mEntL_sortGo_le (es : List (List Nat × FSNode)) :
    ∀ acc, mEntL (sortGo es acc) ≤ mEntL es + mEntL acc := by
  induction es with
  | nil => intro acc; simp [sortGo, mEntL]
  | cons p r ih =>
    obtain ⟨n, c⟩ := p
    intro acc
    calc mEntL (sortGo ((n, c) :: r) acc) = mEntL (sortGo r (insertE n c acc)) := rfl
      _ ≤ mEntL r + mEntL (insertE n c acc) := ih _
      _ ≤ mEntL r + (1 + mNode c + mEntL acc) := by have := mEntL_insertE_le n c acc; omega
      _ = mEntL ((n, c) :: r) + mEntL acc := by simp only [mEntL]; omega

theorem mEntL_sortE_le (es : List (List Nat × FSNode)) : mEntL (sortE es) ≤ mEntL es := by
  have := mEntL_sortGo_le es []
  simpa [sortE, mEntL] using this

theorem framePending_newFrame (t : FSNode) : framePending (newFrame t) = specNode t := by
  match t with
  | .regular mode contents => rfl
  | .symlink target => rfl
  | .directory es =>
    unfold framePending newFrame childrenOf
    simp only
    rw [specNode]
    by_cases hnil : isNilL (sortE es) = true
    · rw [if_pos hnil]
      have : sortE es = [] := by
        cases h : sortE es with
        | nil => rfl
        | cons a l => rw [h] at hnil; simp [isNilL] at hnil
      rw [this, specEntries]
      simp
    · rw [if_neg hnil]
      simp

theorem frameMeasure_newFrame_le (t : FSNode) : frameMeasure (newFrame t) ≤ mNode t := by
  match t with
  | .regular mode contents => simp [frameMeasure, newFrame, childrenOf, mNode]
  | .symlink target => simp [frameMeasure, newFrame, childrenOf, mNode]
  | .directory es =>
    unfold frameMeasure newFrame childrenOf
    simp only
    have hs := mEntL_sortE_le es
    by_cases hnil : isNilL (sortE es) = true
    · rw [if_pos hnil]
      simp only [mNode]
      omega
    · rw [if_neg hnil]
      simp only [mNode]
      omega

theorem wfFrame_newFrame (t : FSNode) : wfFrame (newFrame t) := by
  match t with
  | .regular mode contents => trivial
  | .symlink target => trivial
  | .directory es =>
    unfold wfFrame newFrame
    cases childrenOf (FSNode.directory es) <;> trivial

theorem runDump_pending (fuel : Nat) :
    ∀ (stack : List NarFrame), wfStack stack → stackMeasure stack < fuel →
      runDump fuel stack = some (pendingAll stack) := by
  induction fuel with
  | zero => intro stack _ h; omega
  | succ fuel ih =>
    intro stack hwf hm
    match stack with
    | [] =>
      rw [runDump]
      simp [pendingAll]
    | f :: rest =>
      obtain ⟨node, children, firstChild⟩ := f
      have hwfrest : wfStack rest := fun g hg => hwf g (List.mem_cons_of_mem _ hg)
      have hmcons : stackMeasure (⟨node, children, firstChild⟩ :: rest) =
          frameMeasure ⟨node, children, firstChild⟩ + stackMeasure rest := by
        simp [stackMeasure]
      have hmf : 1 ≤ frameMeasure ⟨node, children, firstChild⟩ := by
        unfold frameMeasure
        cases children <;> simp
      match node with
      | .regular mode contents =>
        rw [runDump]
        simp only
        rw [dumpFileBytes_eq, ih rest hwfrest (by omega)]
        simp [pendingAll, framePending]
      | .symlink target =>
        rw [runDump]
        simp only
        rw [ih rest hwfrest (by omega)]
        simp only [Option.map_some, pendingAll, List.map_cons, List.flatten_cons, framePending]
        rw [specNode]
        simp [dumpSymlinkBytes]
      | .directory es =>
        match children, firstChild with
        | none, false =>
          exact absurd (hwf ⟨.directory es, none, false⟩ (by simp)) (by simp [wfFrame])
        | none, true =>
          rw [runDump]
          simp only [if_pos rfl]
          rw [ih rest hwfrest (by omega)]
          simp [pendingAll, framePending]
        | some [], true =>
          rw [runDump]
          simp only [if_pos rfl]
          rw [ih rest hwfrest (by rw [hmcons] at hm; omega)]
          simp [pendingAll, framePending, specEntries]
        | some [], false =>
          rw [runDump]
          simp only [Bool.false_eq_true, if_neg]
          rw [ih rest hwfrest (by rw [hmcons] at hm; omega)]
          simp [pendingAll, framePending, specEntries]
        | some ((n, c) :: l2), true =>
          rw [runDump]
          simp only [if_pos rfl]
          have hwfnew : wfStack (newFrame c :: ⟨FSNode.directory es, some l2, false⟩ :: rest) := by
            intro g hg
            rcases List.mem_cons.mp hg with hg | hg
            · subst hg; exact wfFrame_newFrame c
            · rcases List.mem_cons.mp hg with hg | hg
              · subst hg; trivial
              · exact hwfrest g hg
          have hmnew : stackMeasure (newFrame c :: ⟨FSNode.directory es, some l2, false⟩ :: rest) < fuel := by
            have h1 := frameMeasure_newFrame_le c
            rw [hmcons] at hm
            simp only [stackMeasure, List.map_cons, List.sum_cons] at *
            simp only [frameMeasure, mEntL] at *
            omega
          rw [ih _ hwfnew hmnew]
          simp only [Option.map_some', pendingAll, List.map_cons, List.flatten_cons]
          rw [framePending_newFrame]
          simp only [framePending, specEntries]
          simp [List.append_assoc]
        | some ((n, c) :: l2), false =>
          rw [runDump]
          simp only [Bool.false_eq_true, if_neg]
          have hwfnew : wfStack (newFrame c :: ⟨FSNode.directory es, some l2, false⟩ :: rest) := by
            intro g hg
            rcases List.mem_cons.mp hg with hg | hg
            · subst hg; exact wfFrame_newFrame c
            · rcases List.mem_cons.mp hg with hg | hg
              · subst hg; trivial
              · exact hwfrest g hg
          have hmnew : stackMeasure (newFrame c :: ⟨FSNode.directory es, some l2, false⟩ :: rest) < fuel := by
            have h1 := frameMeasure_newFrame_le c
            rw [hmcons] at hm
            simp only [stackMeasure, List.map_cons, List.sum_cons] at *
            simp only [frameMeasure, mEntL] at *
            omega
          rw [ih _ hwfnew hmnew]
          simp only [Option.map_some', pendingAll, List.map_cons, List.flatten_cons]
          rw [framePending_newFrame]
          simp only [framePending, specEntries]
          simp [List.append_assoc]

theorem lexLt_irrefl (a : List Nat) : lexLt a a = false := by
  induction a with
  | nil => rfl
  | cons x as ih =>
    unfold lexLt
    rw [if_neg (by omega), if_neg (by omega)]
    exact ih

theorem lexLt_total (a : List Nat) : ∀ b, a = b ∨ lexLt a b = true ∨ lexLt b a = true := by
  induction a with
  | nil =>
    intro b
    cases b with
    | nil => exact Or.inl rfl
    | cons y bs => exact Or.inr (Or.inl rfl)
  | cons x as ih =>
    intro b
    cases b with
    | nil => exact Or.inr (Or.inr rfl)
    | cons y bs =>
      by_cases hxy : x < y
      · exact Or.inr (Or.inl (by unfold lexLt; rw [if_pos hxy]))
      · by_cases hyx : y < x
        · exact Or.inr (Or.inr (by unfold lexLt; rw [if_pos hyx]))
        · have hx : x = y := by omega
          subst hx
          rcases ih bs with h | h | h
          · exact Or.inl (by rw [h])
          · exact Or.inr (Or.inl (by unfold lexLt; rw [if_neg (by omega), if_neg (by omega)]; exact h))
          · exact Or.inr (Or.inr (by unfold lexLt; rw [if_neg (by omega), if_neg (by omega)]; exact h))

theorem lexLt_trans (a : List Nat) :
    ∀ b c, lexLt a b = true → lexLt b c = true → lexLt a c = true := by
  induction a with
  | nil =>
    intro b c hab hbc
    cases b with
    | nil => exact hbc
    | cons y bs =>
      cases c with
      | nil => simp [lexLt] at hbc
      | cons z cs => rfl
  | cons x as ih =>
    intro b c hab hbc
    cases b with
    | nil => simp [lexLt] at hab
    | cons y bs =>
      cases c with
      | nil => simp [lexLt] at hbc
      | cons z cs =>
        unfold lexLt at hab hbc ⊢
        by_cases hxy : x < y
        · have hyz : y < z ∨ (y = z) := by
            by_cases h1 : y < z
            · exact Or.inl h1
            · by_cases h2 : z < y
              · rw [if_neg (by omega), if_pos h2] at hbc; simp at hbc
              · exact Or.inr (by omega)
          rcases hyz with h1 | h1
          · rw [if_pos (by omega)]
          · subst h1; rw [if_pos hxy]
        · by_cases hyx : y < x
          · rw [if_neg hxy, if_pos hyx] at hab; simp at hab
          · have hx : x = y := by omega
            subst hx
            rw [if_neg (by omega), if_neg (by omega)] at hab
            by_cases hyz : x < z
            · rw [if_pos hyz]
            · by_cases hzy : z < x
              · rw [if_neg hyz, if_pos hzy] at hbc; simp at hbc
              · have : x = z := by omega
                subst this
                rw [if_neg (by omega), if_neg (by omega)] at hbc ⊢
                exact ih bs cs hab hbc

theorem mem_keys_insertE (n x : List Nat) (c : FSNode) (l : List (List Nat × FSNode)) :
    x ∈ (insertE n c l).map Prod.fst → x = n ∨ x ∈ l.map Prod.fst := by
  induction l with
  | nil => intro h; simp [insertE] at h; exact Or.inl h
  | cons p r ih =>
    obtain ⟨m, d⟩ := p
    unfold insertE
    split
    · intro h
      simp at h
      rcases h with h | h | h
      · exact Or.inl h
      · exact Or.inr (by simp [h])
      · exact Or.inr (by simp [h])
    · split
      · intro h
        simp at h
        rcases h with h | h
        · exact Or.inl h
        · exact Or.inr (by simp [h])
      · intro h
        simp at h
        rcases h with h | h
        · exact Or.inr (by simp [h])
        · rcases ih (by simpa using h) with h2 | h2
          · exact Or.inl h2
          · exact Or.inr (by simp at h2 ⊢; exact Or.inr h2)

theorem pairwise_insertE (n : List Nat) (c : FSNode) (l : List (List Nat × FSNode))
    (hl : List.Pairwise (fun a b => lexLt a b = true) (l.map Prod.fst)) :
    List.Pairwise (fun a b => lexLt a b = true) ((insertE n c l).map Prod.fst) := by
  induction l with
  | nil => simp [insertE]
  | cons p r ih =>
    obtain ⟨m, d⟩ := p
    simp only [List.map_cons, List.pairwise_cons] at hl
    obtain ⟨hm, hr⟩ := hl
    unfold insertE
    split
    · rename_i hlt
      simp only [List.map_cons, List.pairwise_cons]
      refine ⟨?_, ?_, hr⟩
      · intro x hx
        simp at hx
        rcases hx with hx | hx
        · subst hx; exact hlt
        · exact lexLt_trans n m x hlt (hm x (by simpa using hx))
      · exact hm
    · split
      · rename_i hnlt heq
        subst heq
        simp only [List.map_cons, List.pairwise_cons]
        exact ⟨hm, hr⟩
      · rename_i hnlt hne
        simp only [List.map_cons, List.pairwise_cons]
        refine ⟨?_, ih hr⟩
        intro x hx
        rcases mem_keys_insertE n x c r hx with hx | hx
        · rw [hx]
          rcases lexLt_total n m with h | h | h
          · exact absurd h hne
          · exact absurd h (by simpa using hnlt)
          · exact h
        · exact hm x hx

theorem pairwise_sortGo (es : List (List Nat × FSNode)) :
    ∀ acc, List.Pairwise (fun a b => lexLt a b = true) (acc.map Prod.fst) →
      List.Pairwise (fun a b => lexLt a b = true) ((sortGo es acc).map Prod.fst) := by
  induction es with
  | nil => intro acc h; exact h
  | cons p r ih =>
    obtain ⟨n, c⟩ := p
    intro acc h
    exact ih _ (pairwise_insertE n c acc h)

theorem sortE_pairwise (es : List (List Nat × FSNode)) :
    List.Pairwise (fun a b => lexLt a b = true) ((sortE es).map Prod.fst) :=
  pairwise_sortGo es [] (by simp)

theorem keys_insertE_perm (n : List Nat) (c : FSNode) (l : List (List Nat × FSNode))
    (hn : n ∉ l.map Prod.fst) :
    ((insertE n c l).map Prod.fst).Perm (n :: l.map Prod.fst) := by
  induction l with
  | nil => simp [insertE]
  | cons p r ih =>
    obtain ⟨m, d⟩ := p
    simp only [List.map_cons, List.mem_cons] at hn
    push_neg at hn
    unfold insertE
    split
    · exact List.Perm.refl _
    · split
      · rename_i h1 h2
        exact absurd h2 hn.1
      · simp only [List.map_cons]
        exact List.Perm.trans (List.Perm.cons m (ih hn.2)) (List.Perm.swap n m _)

theorem sortGo_perm (es : List (List Nat × FSNode)) :
    ∀ acc, (es.map Prod.fst ++ acc.map Prod.fst).Nodup →
      ((sortGo es acc).map Prod.fst).Perm (es.map Prod.fst ++ acc.map Prod.fst) := by
  induction es with
  | nil => intro acc _; simp [sortGo]
  | cons p r ih =>
    obtain ⟨n, c⟩ := p
    intro acc hnd
    simp only [List.map_cons, List.cons_append, List.nodup_cons] at hnd
    obtain ⟨hnmem, hnd2⟩ := hnd
    have hnacc : n ∉ acc.map Prod.fst := fun h => hnmem (List.mem_append_right _ h)
    have hperm : ((insertE n c acc).map Prod.fst).Perm (n :: acc.map Prod.fst) :=
      keys_insertE_perm n c acc hnacc
    have hndnew : (r.map Prod.fst ++ (insertE n c acc).map Prod.fst).Nodup := by
      have hp2 : (r.map Prod.fst ++ (insertE n c acc).map Prod.fst).Perm
          (r.map Prod.fst ++ (n :: acc.map Prod.fst)) := List.Perm.append_left _ hperm
      have hp3 : (r.map Prod.fst ++ (n :: acc.map Prod.fst)).Perm
          (n :: (r.map Prod.fst ++ acc.map Prod.fst)) := List.perm_middle
      refine ((hp2.trans hp3).symm.nodup_iff).mp ?_
      exact List.nodup_cons.mpr ⟨hnmem, hnd2⟩
    have hrec := ih (insertE n c acc) hndnew
    refine hrec.trans ?_
    have hp2 : (r.map Prod.fst ++ (insertE n c acc).map Prod.fst).Perm
        (r.map Prod.fst ++ (n :: acc.map Prod.fst)) := List.Perm.append_left _ hperm
    have hp3 : (r.map Prod.fst ++ (n :: acc.map Prod.fst)).Perm
        (n :: (r.map Prod.fst ++ acc.map Prod.fst)) := List.perm_middle
    exact (hp2.trans hp3)

theorem sortE_perm (es : List (List Nat × FSNode)) (h : (es.map Prod.fst).Nodup) :
    ((sortE es).map Prod.fst).Perm (es.map Prod.fst) := by
  have := sortGo_perm es [] (by simpa using h)
  simpa using this

/-- C2: the iterative serializer (`dump_path`) emits exactly the framed
string `nix-archive-1` followed by the specification's recursive `node(P)`
grammar, in which directory entries are iterated in the `BTreeMap` order;
that order is byte-wise ascending (strictly sorted) and, when entry names
are distinct, a permutation of the directory's entries, so the same tree
always yields the same bytes. -/
theorem c2_serializer (t : FSNode) :
    narDump t = some (frameStr (ascii "nix-archive-1") ++ specNode t) ∧
    (∀ es : List (List Nat × FSNode),
      List.Pairwise (fun a b => lexLt a b = true) ((sortE es).map Prod.fst)) ∧
    (∀ es : List (List Nat × FSNode), (es.map Prod.fst).Nodup →
      ((sortE es).map Prod.fst).Perm (es.map Prod.fst)) := by
  refine ⟨?_, sortE_pairwise, sortE_perm⟩
  unfold narDump
  have hwf : wfStack [newFrame t] := by
    intro g hg
    rcases List.mem_cons.mp hg with h | h
    · subst h; exact wfFrame_newFrame t
    · cases h
  have hmeas : stackMeasure [newFrame t] < mNode t + 1 := by
    have := frameMeasure_newFrame_le t
    simp only [stackMeasure, List.map_cons, List.map_nil, List.sum_cons, List.sum_nil]
    omega
  rw [runDump_pending (mNode t + 1) [newFrame t] hwf hmeas]
  simp only [pendingAll, List.map_cons, List.map_nil, List.flatten_cons, List.flatten_nil,
    framePending_newFrame, Option.map_some']
  simp [wbs]

/-- C2 witness: the theorem applied at a concrete two-entry directory, with
the distinct-names hypothesis of the permutation conjunct discharged. -/
theorem c2_witness :
    narDump (.directory [(ascii "b", .symlink (ascii "t")), (ascii "a", .regular 420 [104, 105])]) =
      some (frameStr (ascii "nix-archive-1") ++
        specNode (.directory [(ascii "b", .symlink (ascii "t")), (ascii "a", .regular 420 [104, 105])])) ∧
    ((sortE [(ascii "b", FSNode.symlink (ascii "t")), (ascii "a", FSNode.regular 420 [104, 105])]).map
        Prod.fst).Perm
      ([(ascii "b", FSNode.symlink (ascii "t")), (ascii "a", FSNode.regular 420 [104, 105])].map Prod.fst) :=
  ⟨(c2_serializer _).1,
    (c2_serializer (.directory [])).2.2 _ (by decide)⟩

/-- C3: dumping a file's contents with metadata size `Z` sends exactly the
file bytes plus `(8 - Z mod 8) mod 8` zero padding and succeeds when the
file yields exactly `Z` bytes; a short file sends its bytes but no padding
and fails; an over-long file fails, having sent only a prefix of the file
and no padding. -/
theorem c3_dump_contents (file : List Nat) (Z : Nat) :
    (file.length = Z →
      dumpContentsRun file Z Z =
        (file ++ List.replicate ((8 - Z % 8) % 8) 0, true)) ∧
    (file.length < Z → dumpContentsRun file Z Z = (file, false)) ∧
    (Z < file.length → (dumpContentsRun file Z Z).2 = false ∧
      (dumpContentsRun file Z Z).1 <+: file) := by
  refine ⟨?_, ?_, ?_⟩
  · intro h
    subst h
    rw [dumpContentsRun_exact, alignment_eq_mod]
  · intro h
    exact dumpContentsRun_short file Z Z h
  · intro h
    exact dumpContentsRun_over_aux file.length file Z Z (le_refl _) h

/-- C3 witness: a 3-byte file with expected size 3 sends the bytes plus 5
zero bytes of padding and succeeds. -/
theorem c3_witness :
    dumpContentsRun [1, 2, 3] 3 3 = ([1, 2, 3] ++ List.replicate ((8 - 3 % 8) % 8) 0, true) :=
  (c3_dump_contents [1, 2, 3] 3).1 rfl

/-- C10: the serializer's `dump_file` emits the `executable` marker iff the
owner-execute bit (0o100) is set, while the lister's `file_entry` reports
executable iff any execute bit (0o111) is set; hence a mode with a group or
other execute bit but no owner execute bit is listed as executable although
the archive carries no marker. -/
theorem c10_executable_divergence (mode size : Nat) (contents : List Nat) :
    ((file_entry mode size).executable = (mode &&& 0o111 != 0)) ∧
    (dumpFileBytes mode contents = some
      ((if mode &&& 0o100 ≠ 0 then
          wbs [ascii "(", ascii "type", ascii "regular", ascii "executable",
            ascii "", ascii "contents"]
        else wbs [ascii "(", ascii "type", ascii "regular", ascii "contents"]) ++
        frameStr contents ++ wbs [ascii ")"])) ∧
    (mode &&& 0o100 = 0 → mode &&& 0o111 ≠ 0 →
      (file_entry mode size).executable = true ∧
      dumpFileBytes mode contents = some
        (wbs [ascii "(", ascii "type", ascii "regular", ascii "contents"] ++
          frameStr contents ++ wbs [ascii ")"])) := by
  have hmain : dumpFileBytes mode contents = some
      ((if mode &&& 0o100 ≠ 0 then
          wbs [ascii "(", ascii "type", ascii "regular", ascii "executable",
            ascii "", ascii "contents"]
        else wbs [ascii "(", ascii "type", ascii "regular", ascii "contents"]) ++
        frameStr contents ++ wbs [ascii ")"]) := by
    rw [dumpFileBytes_eq, specNode]
  refine ⟨rfl, hmain, ?_⟩
  intro h100 h111
  constructor
  · simp [file_entry, h111]
  · rw [hmain, if_neg (by simp [h100])]

/-- C10 witness: mode 0o645 (owner rw-, group r--, other r-x: an
other-execute bit but no owner-execute bit) is listed as executable but
serialized without the marker. -/
theorem c10_witness :
    (file_entry 0o645 7).executable = true ∧
    dumpFileBytes 0o645 [104] = some
      (wbs [ascii "(", ascii "type", ascii "regular", ascii "contents"] ++
        frameStr [104] ++ wbs [ascii ")"]) :=
  (c10_executable_divergence 0o645 7 [104]).2.2 (by decide) (by decide)

/-- C1 (code bug): on the partition `[[10,11],[12,13,14,15]]` of a 6-byte
archive with window offset 1, length 3, the slicing stage emits 4 bytes
`[11,12,13,14]` instead of the 3-byte window `[11,12,13]`: for a chunk that
starts strictly inside the window and crosses its end, the code computes
`end = start + rlength` instead of `offset + rlength - send`. -/
theorem c1_range_slice_bug :
    sliceStage [[10, 11], [12, 13, 14, 15]] 0 1 3 = some [[11], [12, 13, 14]] ∧
    ([[11], [12, 13, 14]] : List (List Nat)).flatten ≠
      ((([[10, 11], [12, 13, 14, 15]] : List (List Nat)).flatten.drop 1).take 3) ∧
    1 + 3 ≤ ([[10, 11], [12, 13, 14, 15]] : List (List Nat)).flatten.length := by
  refine ⟨by decide, by decide, by decide⟩

/-- C1, the case the code gets right: when the whole archive arrives as a
single chunk, the stage emits exactly the requested window. -/
theorem c1_single_chunk (archive : List Nat) (offset rlength : Nat)
    (h : offset + rlength ≤ archive.length) (hr : 0 < rlength) :
    (sliceStage [archive] 0 offset rlength).map (fun l => l.flatten) =
      some ((archive.drop offset).take rlength) := by
  rw [sliceStage]
  simp only
  rw [if_pos (by omega)]
  have hstart : (if (0:Nat) < offset then offset - 0 else 0) = offset := by
    split <;> omega
  rw [hstart]
  by_cases hcross : 0 + archive.length > offset + rlength
  · rw [if_pos hcross, if_pos ⟨by omega, by omega⟩, sliceStage]
    simp only [Option.map_some', List.flatten_cons, List.flatten_nil, List.append_nil]
    rw [show offset + rlength - offset = rlength from by omega]
  · rw [if_neg hcross, if_pos ⟨by omega, le_refl _⟩, sliceStage]
    simp only [Option.map_some', List.flatten_cons, List.flatten_nil, List.append_nil]
    rw [List.take_of_length_le (by simp), List.take_of_length_le (by simp; omega)]

/-- C9 (amended): a request whose hash does not have exactly 32 characters
gets HTTP 404 Not Found with body `missed hash` (not 400 Bad Request):
`nixhash` returns `None` on a wrong-length hash and `some_or_404!` maps
that to `HttpResponse::NotFound()`. -/
theorem c9_invalid_hash_length (oracle : List Nat → Option (List Nat))
    (cont : List Nat → HttpResp) (hash : List Nat) (h : hash.length ≠ 32) :
    handlerWithNixhash oracle cont hash = ⟨404, ascii "missed hash"⟩ := by
  unfold handlerWithNixhash nixhash
  rw [if_pos h]

/-- C9 counterexample: a 3-character hash produces status 404, not the 400
the claim requires, even when the lookup and the rest of the handler would
succeed. -/
theorem c9_counterexample :
    (handlerWithNixhash (fun _ => some []) (fun _ => ⟨200, []⟩) (ascii "abc")).status = 404 ∧
    (handlerWithNixhash (fun _ => some []) (fun _ => ⟨200, []⟩) (ascii "abc")).status ≠ 400 := by
  refine ⟨rfl, by decide⟩

/-- C9 witness. -/
theorem c9_witness :
    handlerWithNixhash (fun _ => some []) (fun _ => ⟨200, []⟩) (ascii "abc") =
      ⟨404, ascii "missed hash"⟩ :=
  c9_invalid_hash_length (fun _ => some []) (fun _ => ⟨200, []⟩) (ascii "abc") (by decide)
